import Mathlib

/-!
Shallow embedding of the LRU cache from `LRUCache11.hpp` (namespace `lru11`).

The C++ code keeps an intrusive doubly-linked list of heap-allocated
`kv::Node` objects plus an associative index (`std::unordered_map`) from keys
to node pointers.  We model the heap as an association list from node
addresses (`NodeId`) to node records; a pointer is `Option NodeId`, with
`none` playing the role of `nullptr`.  Reading or writing through a pointer
whose target is not allocated (a dangling pointer, i.e. use-after-free) and
dereferencing `nullptr` are undefined behavior in C++; operations therefore
return `Option`, with `none` meaning the C++ execution has no defined result.
Sizes (`size_t`) are modeled as `Nat`; the counts involved stay far below
2^64 in every state considered here, so wrap-around never matters.
-/

namespace LRU

abbrev NodeId := Nat

/-- Transcribes `kv::Node<Key, Value>` (LRUCache11.hpp lines 79-136):
`prev`/`next` pointers plus the key and the value. -/
structure Node (K V : Type) where
  prev : Option NodeId
  next : Option NodeId
  key : K
  value : V
  deriving DecidableEq, Repr

/-- The whole cache state: the heap of allocated nodes (`arena`), the
allocator counter (`nextId`, fresh addresses), the fields of `kv::List`
(`head`, `tail`, `len` — LRUCache11.hpp lines 141-148), the index map
`cache_` (`index`), and the configuration `maxSize_`/`elasticity_` of
`Cache` (LRUCache11.hpp lines 352-357). -/
structure St (K V : Type) where
  arena : List (NodeId × Node K V)
  nextId : NodeId
  head : Option NodeId
  tail : Option NodeId
  len : Nat
  index : List (K × NodeId)
  maxSize : Nat
  elasticity : Nat
  deriving DecidableEq, Repr

variable {K V : Type} [DecidableEq K] [DecidableEq V]

/-- Look up an allocated node by address (reading through a pointer). -/
def findA (a : List (NodeId × Node K V)) (i : NodeId) : Option (Node K V) :=
  match a with
  | [] => none
  | (j, nd) :: t => if j = i then some nd else findA t i

/-- Overwrite the node stored at an address (writing through a pointer). -/
def setA (a : List (NodeId × Node K V)) (i : NodeId) (nd : Node K V) :
    List (NodeId × Node K V) :=
  match a with
  | [] => []
  | (j, m) :: t => if j = i then (j, nd) :: t else (j, m) :: setA t i nd

/-- Deallocate the node stored at an address (`delete`). -/
def eraseA (a : List (NodeId × Node K V)) (i : NodeId) :
    List (NodeId × Node K V) :=
  match a with
  | [] => []
  | (j, m) :: t => if j = i then t else (j, m) :: eraseA t i

/-- Addresses of the currently allocated nodes. -/
def idsOfArena (a : List (NodeId × Node K V)) : List NodeId :=
  a.map Prod.fst

/-- Read the node a pointer targets; `none` when the target is not a live
allocation (null or dangling pointer dereference: undefined behavior). -/
def getN (s : St K V) (i : NodeId) : Option (Node K V) :=
  findA s.arena i

/-- Write the node a pointer targets; fails (undefined behavior) when the
target is not a live allocation. -/
def setN (s : St K V) (i : NodeId) (nd : Node K V) : Option (St K V) :=
  match findA s.arena i with
  | none => none
  | some _ => some { s with arena := setA s.arena i nd }

/-- Transcribes `Node::unlink` (LRUCache11.hpp lines 98-107):
`if (next) next->prev = prev; if (prev) prev->next = next;
next = nullptr; prev = nullptr;`.  Each statement re-reads the current
fields of node `i`, exactly as the C++ member accesses do. -/
def unlink (s : St K V) (i : NodeId) : Option (St K V) :=
  match getN s i with
  | none => none
  | some nd0 =>
    let step1 : Option (St K V) :=
      match nd0.next with
      | none => some s
      | some nx =>
        match getN s nx with
        | none => none
        | some m => setN s nx { m with prev := nd0.prev }
    match step1 with
    | none => none
    | some s1 =>
      match getN s1 i with
      | none => none
      | some nd1 =>
        let step2 : Option (St K V) :=
          match nd1.prev with
          | none => some s1
          | some pv =>
            match getN s1 pv with
            | none => none
            | some m => setN s1 pv { m with next := nd1.next }
        match step2 with
        | none => none
        | some s2 =>
          match getN s2 i with
          | none => none
          | some nd2 =>
            match setN s2 i { nd2 with next := none } with
            | none => none
            | some s3 =>
              match getN s3 i with
              | none => none
              | some nd3 => setN s3 i { nd3 with prev := none }

/-- Transcribes `List::pop` (LRUCache11.hpp lines 168-181).  Returns the
popped node's address (`none` models returning `nullptr` on an empty list)
together with the new state. -/
def pop (s : St K V) : Option (Option NodeId × St K V) :=
  match s.head with
  | none => some (none, s)
  | some h =>
    match getN s h with
    | none => none
    | some hd =>
      let newHead := hd.next
      match unlink s h with
      | none => none
      | some s1 =>
        let s2 := { s1 with head := newHead, len := s1.len - 1 }
        let s3 := if s2.len = 0 then { s2 with tail := none } else s2
        some (some h, s3)

/-- Transcribes `List::remove` (LRUCache11.hpp lines 183-196); the caller
guarantees `n` is a member of the list.  The `if (!n)` guard is not modeled:
every call site passes a pointer stored in the index, never null. -/
def lremove (s : St K V) (n : NodeId) : Option (St K V) :=
  match getN s n with
  | none => none
  | some nd =>
    let s1 := if s.head = some n then { s with head := nd.next } else s
    let s2 := if s1.tail = some n then { s1 with tail := nd.prev } else s1
    match unlink s2 n with
    | none => none
    | some s3 => some { s3 with len := s3.len - 1 }

/-- Transcribes `List::push` (LRUCache11.hpp lines 198-213); the caller
guarantees `n` is not currently in the list.  Note the `head == tail` branch
sets `head->next = n` without setting `n->prev`, and the final branch
dereferences `tail` (undefined behavior when `tail` is null). -/
def push (s : St K V) (n : NodeId) : Option (St K V) :=
  match unlink s n with
  | none => none
  | some s1 =>
    let step : Option (St K V) :=
      match s1.head with
      | none => some { s1 with head := some n }
      | some h =>
        if s1.head = s1.tail then
          match getN s1 h with
          | none => none
          | some hd => setN s1 h { hd with next := some n }
        else
          match s1.tail with
          | none => none
          | some t =>
            match getN s1 t with
            | none => none
            | some td =>
              match setN s1 t { td with next := some n } with
              | none => none
              | some s2 =>
                match getN s2 n with
                | none => none
                | some nd => setN s2 n { nd with prev := some t }
    match step with
    | none => none
    | some s2 => some { s2 with tail := some n, len := s2.len + 1 }

/-- Transcribes `~Node`/`Node::cleanup` (LRUCache11.hpp lines 90-97):
deleting a node recursively deletes its `next` chain.  Deleting an address
that is not live is undefined behavior; the fuel bounds the recursion (a
pointer cycle revisits a freed node and fails before fuel runs out). -/
def freeChain (s : St K V) : Option NodeId → Nat → Option (St K V)
  | none, _ => some s
  | some _, 0 => none
  | some i, fuel + 1 =>
    match getN s i with
    | none => none
    | some nd => freeChain { s with arena := eraseA s.arena i } nd.next fuel

/-- Lookup in the index map, `cache_.find(k)` (first entry with key `k`). -/
def mfind (m : List (K × NodeId)) (k : K) : Option NodeId :=
  match m with
  | [] => none
  | (k1, i) :: t => if k1 = k then some i else mfind t k

/-- Transcribes `cache_[k] = n`: overwrite if the key is present, otherwise
add the entry. -/
def mput (m : List (K × NodeId)) (k : K) (i : NodeId) : List (K × NodeId) :=
  match m with
  | [] => [(k, i)]
  | (k1, j) :: t => if k1 = k then (k1, i) :: t else (k1, j) :: mput t k i

/-- Transcribes `cache_.erase(k)`: drop the entry with key `k`. -/
def merase (m : List (K × NodeId)) (k : K) : List (K × NodeId) :=
  match m with
  | [] => []
  | (k1, j) :: t => if k1 = k then t else (k1, j) :: merase t k

/-- Transcribes the fresh cache `Cache(maxSize, elasticity)`
(LRUCache11.hpp lines 252-254; defaults 64 and 10). -/
def mkCache (maxSize elasticity : Nat) : St K V :=
  { arena := [], nextId := 0, head := none, tail := none, len := 0,
    index := [], maxSize := maxSize, elasticity := elasticity }

/-- Transcribes `Cache::size` (LRUCache11.hpp lines 256-259). -/
def size (s : St K V) : Nat :=
  s.index.length

/-- One iteration of the `while (cache_.size() > maxSize_)` body in
`Cache::prune` (LRUCache11.hpp lines 344-348): pop the list head (`n->key`
on a null `n` is undefined behavior), erase its key from the index, and
free the node (the `unique_ptr` destroys it at the end of the iteration). -/
def pruneBody (s : St K V) : Option (St K V) :=
  match pop s with
  | none => none
  | some (none, _) => none
  | some (some n, s1) =>
    match getN s1 n with
    | none => none
    | some nd =>
      let s2 := { s1 with index := merase s1.index nd.key }
      some { s2 with arena := eraseA s2.arena n }

/-- The `while (cache_.size() > maxSize_)` loop of `Cache::prune`, with fuel
for termination; exhausting the fuel means the C++ loop has no terminating
execution on the given state. -/
def pruneLoop (s : St K V) (fuel count : Nat) : Option (St K V × Nat) :=
  match fuel with
  | 0 => none
  | f + 1 =>
    if s.maxSize < s.index.length then
      match pruneBody s with
      | none => none
      | some s3 => pruneLoop s3 f (count + 1)
    else
      some (s, count)

/-- Transcribes `Cache::prune` (LRUCache11.hpp lines 338-351). -/
def prune (s : St K V) : Option (St K V × Nat) :=
  let maxAllowed := s.maxSize + s.elasticity
  if s.maxSize = 0 ∨ s.index.length < maxAllowed then
    some (s, 0)
  else
    pruneLoop s (s.index.length + 1) 0

/-- Transcribes `Cache::insert` (LRUCache11.hpp lines 269-282): overwrite
value and refresh when the key exists; otherwise allocate a node, add it to
the index, push it, and prune. -/
def insert (s : St K V) (k : K) (v : V) : Option (St K V) :=
  match mfind s.index k with
  | some i =>
    match getN s i with
    | none => none
    | some nd =>
      match setN s i { nd with value := v } with
      | none => none
      | some s1 =>
        match lremove s1 i with
        | none => none
        | some s2 => push s2 i
  | none =>
    let n := s.nextId
    let s1 : St K V :=
      { s with arena := s.arena ++ [(n, ⟨none, none, k, v⟩)],
               nextId := n + 1,
               index := mput s.index k n }
    match push s1 n with
    | none => none
    | some s2 =>
      match prune s2 with
      | none => none
      | some (s3, _) => some s3

/-- Result of `Cache::get`: either the value, or the thrown `KeyNotFound`
exception (LRUCache11.hpp lines 220-225 and 294-303). -/
inductive GetRes (V : Type) where
  | ok (v : V)
  | keyNotFound
  deriving DecidableEq, Repr

/-- Transcribes `Cache::get` (LRUCache11.hpp lines 294-303): throw
`KeyNotFound` on a missing key (state unchanged), otherwise refresh the node
and return its value. -/
def get (s : St K V) (k : K) : Option (St K V × GetRes V) :=
  match mfind s.index k with
  | none => some (s, GetRes.keyNotFound)
  | some i =>
    match lremove s i with
    | none => none
    | some s1 =>
      match push s1 i with
      | none => none
      | some s2 =>
        match getN s2 i with
        | none => none
        | some nd => some (s2, GetRes.ok nd.value)

/-- Transcribes `Cache::tryGet` (LRUCache11.hpp lines 283-293): the third
argument is the caller's `vOut` variable before the call, and the third
component of the result is `vOut` after the call (assigned only on a hit). -/
def tryGet (s : St K V) (k : K) (vOut : V) : Option (St K V × Bool × V) :=
  match mfind s.index k with
  | none => some (s, false, vOut)
  | some i =>
    match lremove s i with
    | none => none
    | some s1 =>
      match push s1 i with
      | none => none
      | some s2 =>
        match getN s2 i with
        | none => none
        | some nd => some (s2, true, nd.value)

/-- Transcribes `Cache::remove` (LRUCache11.hpp lines 304-314): unlink the
node, `delete` it (its `next` chain is null after the unlink, so only the
node itself is freed), and erase the key from the index. -/
def remove (s : St K V) (k : K) : Option (St K V × Bool) :=
  match mfind s.index k with
  | none => some (s, false)
  | some i =>
    match lremove s i with
    | none => none
    | some s1 =>
      match freeChain s1 (some i) (s1.arena.length + 1) with
      | none => none
      | some s2 => some ({ s2 with index := merase s2.index k }, true)

/-- Transcribes `Cache::contains` (LRUCache11.hpp lines 315-318).  The body
is a single index lookup; the returned state is the state after the call. -/
def containsOp (s : St K V) (k : K) : St K V × Bool :=
  (s, (mfind s.index k).isSome)

/-- Transcribes `Cache::clear` (LRUCache11.hpp lines 264-268) together with
`List::clear` (lines 153-158): clear the index, then `delete head`, which
cascades along the `next` chain, then reset `head`/`tail`/`len`. -/
def clear (s : St K V) : Option (St K V) :=
  let s1 : St K V := { s with index := [] }
  match freeChain s1 s1.head (s1.arena.length + 1) with
  | none => none
  | some s2 => some { s2 with head := none, tail := none, len := 0 }

/-- A public cache operation, for stating reachability by operation
sequences. -/
inductive Op (K V : Type) where
  | ins (k : K) (v : V)
  | get (k : K)
  | tryGet (k : K) (v0 : V)
  | rem (k : K)
  | clear
  deriving DecidableEq, Repr

/-- Run one public operation, keeping only the state. -/
def runOp (s : St K V) : Op K V → Option (St K V)
  | Op.ins k v => insert s k v
  | Op.get k => (get s k).map Prod.fst
  | Op.tryGet k v0 => (tryGet s k v0).map Prod.fst
  | Op.rem k => (remove s k).map Prod.fst
  | Op.clear => clear s

/-- Run a sequence of public operations. -/
def runOps (s : St K V) : List (Op K V) → Option (St K V)
  | [] => some s
  | op :: rest =>
    match runOp s op with
    | none => none
    | some s1 => runOps s1 rest

/-- Run a sequence of inserts (`insertAll s kvs` inserts each pair in
order). -/
def insertAll (s : St K V) : List (K × V) → Option (St K V)
  | [] => some s
  | (k, v) :: rest =>
    match insert s k v with
    | none => none
    | some s1 => insertAll s1 rest

/-- `chainB a c ids = true` when, in heap `a`, following `next` pointers
from pointer `c` visits exactly the addresses `ids` in order and ends at a
null pointer. -/
def chainB (a : List (NodeId × Node K V)) : Option NodeId → List NodeId → Bool
  | none, [] => true
  | none, _ :: _ => false
  | some _, [] => false
  | some c, i :: rest =>
    decide (c = i) &&
      (match findA a i with
       | none => false
       | some nd => chainB a nd.next rest)

/-- The head node (when there is one) is live and has a null `prev`. -/
def headPrevB (s : St K V) : Bool :=
  match s.head with
  | none => true
  | some h =>
    match getN s h with
    | none => false
    | some nd => decide (nd.prev = none)

/-- Well-formedness of a cache state, with `ids` the list of node addresses
in recency order (head first): the `next` chain from `head` is exactly
`ids` and ends at null, the addresses are distinct, the allocated nodes are
exactly the chain nodes, `len` and `tail` agree with the chain, the head's
`prev` is null, and the index is a key-to-address bijection onto the chain
whose stored keys match the nodes.  All states reachable by new-key inserts
(hence all states `prune` runs on during such inserts) satisfy it. -/
def wfP (s : St K V) (ids : List NodeId) : Prop :=
  chainB s.arena s.head ids = true ∧
  ids.Nodup ∧
  List.Perm (idsOfArena s.arena) ids ∧
  s.len = ids.length ∧
  s.tail = ids.getLast? ∧
  headPrevB s = true ∧
  List.Perm (s.index.map Prod.snd) ids ∧
  (s.index.map Prod.fst).Nodup ∧
  (∀ e ∈ s.index, (getN s e.2).map Node.key = some e.1) ∧
  (∀ i ∈ ids, i < s.nextId)

instance (s : St K V) (ids : List NodeId) : Decidable (wfP s ids) := by
  unfold wfP; exact inferInstance

/-- Follow `next` pointers from a starting pointer, with fuel; `none` when
the walk dereferences a dead node or cannot reach a null pointer.  This is
the traversal `cwalk` performs (LRUCache11.hpp lines 122-128, 329-336). -/
def chainFuel (s : St K V) : Option NodeId → Nat → Option (List NodeId)
  | none, _ => some []
  | some _, 0 => none
  | some i, fuel + 1 =>
    match getN s i with
    | none => none
    | some nd =>
      match chainFuel s nd.next fuel with
      | none => none
      | some rest => some (i :: rest)

/-- The addresses visited walking from `head`, when that walk is defined. -/
def walkIds (s : St K V) : Option (List NodeId) :=
  chainFuel s s.head (s.arena.length + 1)

/-- The recency-list invariant as the specification states it: walking from
head to tail is well defined and visits every live node exactly once, the
head's `prev` and the tail's `next` are null, the walk ends at the tail,
and the list count equals the number of live nodes. -/
def listInvariant (s : St K V) : Bool :=
  match walkIds s with
  | none => false
  | some ids =>
    headPrevB s &&
    (match s.tail with
     | none => decide (ids = [])
     | some t =>
       match getN s t with
       | none => false
       | some nd => decide (nd.next = none) && decide (ids.getLast? = some t)) &&
    ids.Nodup &&
    decide (List.Perm (idsOfArena s.arena) ids) &&
    decide (s.len = ids.length)

/-- A small concrete well-formed cache state (two entries, maxSize 1,
elasticity 1), used to instantiate general theorems. -/
def sampleSt : St Nat Nat :=
  { arena := [(0, ⟨none, some 1, 10, 100⟩), (1, ⟨none, none, 20, 200⟩)],
    nextId := 2, head := some 0, tail := some 1, len := 2,
    index := [(10, 0), (20, 1)], maxSize := 1, elasticity := 1 }

/-! ### Arena (heap) lemmas -/

theorem findA_setA_self {a : List (NodeId × Node K V)} {i : NodeId}
    {nd x : Node K V} (h : findA a i = some nd) :
    findA (setA a i x) i = some x := by
  induction a with
  | nil => simp [findA] at h
  | cons e t ih =>
    obtain ⟨j, m⟩ := e
    by_cases hj : j = i
    · subst hj; simp [findA, setA]
    · simp only [findA, setA, if_neg hj] at h ⊢
      exact ih h

theorem findA_setA_ne {a : List (NodeId × Node K V)} {i j : NodeId}
    {x : Node K V} (hne : j ≠ i) : findA (setA a i x) j = findA a j := by
  induction a with
  | nil => simp [findA, setA]
  | cons e t ih =>
    obtain ⟨l, m⟩ := e
    by_cases hl : l = i
    · subst hl
      have : l ≠ j := fun h => hne h.symm
      simp [findA, setA, this]
    · by_cases hlj : l = j
      · subst hlj; simp [findA, setA, hl]
      · simp [findA, setA, hl, hlj, ih]

theorem idsOfArena_setA {a : List (NodeId × Node K V)} {i : NodeId}
    {x : Node K V} : idsOfArena (setA a i x) = idsOfArena a := by
  induction a with
  | nil => rfl
  | cons e t ih =>
    obtain ⟨l, m⟩ := e
    by_cases hl : l = i
    · subst hl; simp [setA, idsOfArena]
    · simp only [setA, if_neg hl, idsOfArena, List.map_cons] at ih ⊢
      rw [ih]

theorem setA_of_findA_eq {a : List (NodeId × Node K V)} {i : NodeId}
    {x : Node K V} (h : findA a i = some x) : setA a i x = a := by
  induction a with
  | nil => rfl
  | cons e t ih =>
    obtain ⟨l, m⟩ := e
    by_cases hl : l = i
    · subst hl
      have hmx : m = x := by simpa [findA] using h
      subst hmx
      simp [setA]
    · simp only [findA, if_neg hl] at h
      simp [setA, hl, ih h]

theorem setA_setA {a : List (NodeId × Node K V)} {i : NodeId}
    {x y : Node K V} : setA (setA a i x) i y = setA a i y := by
  induction a with
  | nil => rfl
  | cons e t ih =>
    obtain ⟨l, m⟩ := e
    by_cases hl : l = i
    · subst hl; simp [setA]
    · simp [setA, hl, ih]

theorem findA_eraseA_ne {a : List (NodeId × Node K V)} {i j : NodeId}
    (hne : j ≠ i) : findA (eraseA a i) j = findA a j := by
  induction a with
  | nil => rfl
  | cons e t ih =>
    obtain ⟨l, m⟩ := e
    by_cases hl : l = i
    · subst hl
      have : l ≠ j := fun h => hne h.symm
      simp [findA, eraseA, this]
    · by_cases hlj : l = j
      · subst hlj; simp [findA, eraseA, hl]
      · simp [findA, eraseA, hl, hlj, ih]

theorem idsOfArena_eraseA {a : List (NodeId × Node K V)} {i : NodeId} :
    idsOfArena (eraseA a i) = (idsOfArena a).erase i := by
  induction a with
  | nil => rfl
  | cons e t ih =>
    obtain ⟨l, m⟩ := e
    by_cases hl : l = i
    · subst hl; simp [eraseA, idsOfArena, List.erase_cons]
    · have hbeq : (l == i) = false := by simp [hl]
      simp only [eraseA, if_neg hl, idsOfArena, List.map_cons, List.erase_cons,
        hbeq, if_neg Bool.false_ne_true]
      simp only [idsOfArena] at ih
      rw [ih]

theorem findA_append_left {a b : List (NodeId × Node K V)} {i : NodeId}
    {x : Node K V} (h : findA a i = some x) : findA (a ++ b) i = some x := by
  induction a with
  | nil => simp [findA] at h
  | cons e t ih =>
    obtain ⟨l, m⟩ := e
    by_cases hl : l = i
    · subst hl
      simp only [findA, if_pos rfl] at h ⊢
      exact h
    · simp only [List.cons_append, findA, if_neg hl] at h ⊢
      exact ih h

theorem findA_append_right {a b : List (NodeId × Node K V)} {i : NodeId}
    (h : findA a i = none) : findA (a ++ b) i = findA b i := by
  induction a with
  | nil => rfl
  | cons e t ih =>
    obtain ⟨l, m⟩ := e
    by_cases hl : l = i
    · subst hl; simp [findA] at h
    · simp only [findA, if_neg hl] at h
      simp only [List.cons_append, findA, if_neg hl]
      exact ih h

theorem findA_eq_none_iff {a : List (NodeId × Node K V)} {i : NodeId} :
    findA a i = none ↔ i ∉ idsOfArena a := by
  induction a with
  | nil => simp [findA, idsOfArena]
  | cons e t ih =>
    obtain ⟨l, m⟩ := e
    by_cases hl : l = i
    · subst hl; simp [findA, idsOfArena]
    · simp only [findA, if_neg hl, idsOfArena, List.map_cons, List.mem_cons]
      rw [ih]
      constructor
      · intro hn hor
        rcases hor with h | h
        · exact hl h.symm
        · exact hn h
      · intro hn h
        exact hn (Or.inr h)

theorem findA_isSome_of_mem {a : List (NodeId × Node K V)} {i : NodeId}
    (h : i ∈ idsOfArena a) : ∃ nd, findA a i = some nd := by
  cases hf : findA a i with
  | none => exact absurd h (findA_eq_none_iff.mp hf)
  | some nd => exact ⟨nd, rfl⟩

/-! ### Index map lemmas -/

theorem mfind_eq_none_iff {m : List (K × NodeId)} {k : K} :
    mfind m k = none ↔ k ∉ m.map Prod.fst := by
  induction m with
  | nil => simp [mfind]
  | cons e t ih =>
    obtain ⟨k1, i⟩ := e
    by_cases hk : k1 = k
    · subst hk; simp [mfind]
    · simp only [mfind, if_neg hk, List.map_cons, List.mem_cons]
      rw [ih]
      constructor
      · intro hn hor
        rcases hor with h | h
        · exact hk h.symm
        · exact hn h
      · intro hn h
        exact hn (Or.inr h)

theorem mput_of_not_mem {m : List (K × NodeId)} {k : K} {i : NodeId}
    (h : k ∉ m.map Prod.fst) : mput m k i = m ++ [(k, i)] := by
  induction m with
  | nil => rfl
  | cons e t ih =>
    obtain ⟨k1, j⟩ := e
    simp only [List.map_cons, List.mem_cons, not_or] at h
    have hk : k1 ≠ k := fun hh => h.1 hh.symm
    simp [mput, hk, ih h.2]

theorem mfind_of_mem_nodup {m : List (K × NodeId)} {k : K} {i : NodeId}
    (hnd : (m.map Prod.fst).Nodup) (hm : (k, i) ∈ m) : mfind m k = some i := by
  induction m with
  | nil => simp at hm
  | cons e t ih =>
    obtain ⟨k1, j⟩ := e
    simp only [List.map_cons, List.nodup_cons] at hnd
    rcases List.mem_cons.mp hm with he | ht
    · injection he with h1 h2
      subst h1; subst h2
      simp [mfind]
    · have hk : k1 ≠ k := by
        intro hh
        exact hnd.1 (hh ▸ (List.mem_map.mpr ⟨(k, i), ht, rfl⟩))
      simp [mfind, hk, ih hnd.2 ht]

theorem merase_decomp {m : List (K × NodeId)} {k : K} {i : NodeId}
    (h : mfind m k = some i) :
    ∃ m1 m2, m = m1 ++ (k, i) :: m2 ∧ k ∉ m1.map Prod.fst ∧
      merase m k = m1 ++ m2 := by
  induction m with
  | nil => simp [mfind] at h
  | cons e t ih =>
    obtain ⟨k1, j⟩ := e
    by_cases hk : k1 = k
    · subst hk
      have hj : j = i := by simpa [mfind] using h
      subst hj
      exact ⟨[], t, rfl, by simp, by simp [merase]⟩
    · simp only [mfind, if_neg hk] at h
      obtain ⟨m1, m2, hm, hk1, hme⟩ := ih h
      refine ⟨(k1, j) :: m1, m2, by simp [hm], ?_, by simp [merase, hk, hme]⟩
      simp only [List.map_cons, List.mem_cons, not_or]
      exact ⟨fun hh => hk hh.symm, hk1⟩

theorem merase_sublist {m : List (K × NodeId)} {k : K} :
    List.Sublist (merase m k) m := by
  induction m with
  | nil => simp [merase]
  | cons e t ih =>
    obtain ⟨k1, j⟩ := e
    by_cases hk : k1 = k
    · simp only [merase, if_pos hk]
      exact List.sublist_cons_self _ _
    · simp only [merase, if_neg hk]
      exact ih.cons₂ _

/-! ### Chain lemmas -/

theorem mem_of_getLastQ {l : List NodeId} {a : NodeId}
    (h : l.getLast? = some a) : a ∈ l := by
  induction l with
  | nil => simp at h
  | cons x t ih =>
    cases t with
    | nil =>
      simp only [List.getLast?_singleton, Option.some_inj] at h
      simp [h]
    | cons y t2 =>
      rw [List.getLast?_cons_cons] at h
      exact List.mem_cons_of_mem _ (ih h)

theorem chainB_nil_iff {a : List (NodeId × Node K V)} {c : Option NodeId} :
    chainB a c [] = true ↔ c = none := by
  cases c <;> simp [chainB]

theorem chainB_cons_iff {a : List (NodeId × Node K V)} {c : Option NodeId}
    {i : NodeId} {rest : List NodeId} :
    chainB a c (i :: rest) = true ↔
      c = some i ∧ ∃ nd, findA a i = some nd ∧ chainB a nd.next rest = true := by
  cases c with
  | none => simp [chainB]
  | some c =>
    cases hg : findA a i with
    | none => simp [chainB, hg]
    | some nd =>
      simp only [chainB, hg, Bool.and_eq_true, decide_eq_true_eq,
        Option.some_inj]
      constructor
      · rintro ⟨rfl, h⟩
        exact ⟨rfl, nd, rfl, h⟩
      · rintro ⟨rfl, nd1, hnd, h⟩
        cases hnd
        exact ⟨rfl, h⟩

theorem chainB_congr (a1 a2 : List (NodeId × Node K V)) :
    ∀ (ids : List NodeId) (c : Option NodeId),
      (∀ i ∈ ids, (findA a2 i).map Node.next = (findA a1 i).map Node.next) →
      chainB a2 c ids = chainB a1 c ids := by
  intro ids
  induction ids with
  | nil => intro c _; cases c <;> rfl
  | cons i rest ih =>
    intro c h
    cases c with
    | none => rfl
    | some c =>
      have hi := h i (List.mem_cons_self i rest)
      cases h1 : findA a1 i with
      | none =>
        have h2 : findA a2 i = none := by
          rw [h1] at hi
          simpa using hi
        simp [chainB, h1, h2]
      | some nd1 =>
        rw [h1] at hi
        cases h2 : findA a2 i with
        | none => rw [h2] at hi; simp at hi
        | some nd2 =>
          rw [h2] at hi
          simp only [Option.map_some', Option.some_inj] at hi
          simp only [chainB, h1, h2, hi]
          rw [ih nd1.next fun j hj => h j (List.mem_cons_of_mem _ hj)]

theorem chainB_mem_isSome {a : List (NodeId × Node K V)} :
    ∀ {ids : List NodeId} {c : Option NodeId}, chainB a c ids = true →
      ∀ i ∈ ids, ∃ nd, findA a i = some nd := by
  intro ids
  induction ids with
  | nil => intro c _ i hi; simp at hi
  | cons j rest ih =>
    intro c h i hi
    obtain ⟨rfl, nd, hnd, hrest⟩ := chainB_cons_iff.mp h
    rcases List.mem_cons.mp hi with rfl | hi2
    · exact ⟨nd, hnd⟩
    · exact ih hrest i hi2

theorem chainB_snoc {a a2 : List (NodeId × Node K V)} {n : NodeId} :
    ∀ (ids : List NodeId) (c : Option NodeId) (t : NodeId) (tnd : Node K V),
      chainB a c ids = true →
      ids.getLast? = some t →
      ids.Nodup →
      (∀ i ∈ ids, i ≠ t → findA a2 i = findA a i) →
      findA a t = some tnd →
      (findA a2 t).map Node.next = some (some n) →
      (∃ nnd, findA a2 n = some nnd ∧ nnd.next = none) →
      chainB a2 c (ids ++ [n]) = true := by
  intro ids
  induction ids with
  | nil => intro c t tnd _ hlast; simp at hlast
  | cons i rest ih =>
    intro c t tnd hch hlast hnd hsame ht ht2 hn
    obtain ⟨rfl, nd, hndi, hrest⟩ := chainB_cons_iff.mp hch
    cases rest with
    | nil =>
      simp only [List.getLast?_singleton, Option.some_inj] at hlast
      subst hlast
      obtain ⟨nnd, hnnd, hnnext⟩ := hn
      rw [hndi] at ht
      cases ht
      cases h2 : findA a2 i with
      | none => rw [h2] at ht2; simp at ht2
      | some tnd2 =>
        rw [h2] at ht2
        simp only [Option.map_some', Option.some_inj] at ht2
        refine chainB_cons_iff.mpr ⟨rfl, tnd2, h2, ?_⟩
        rw [ht2]
        exact chainB_cons_iff.mpr ⟨rfl, nnd, hnnd, by simp [hnnext, chainB]⟩
    | cons j rest2 =>
      rw [List.getLast?_cons_cons] at hlast
      have htmem : t ∈ j :: rest2 := mem_of_getLastQ hlast
      have hit : i ≠ t := by
        intro hh
        subst hh
        exact (List.nodup_cons.mp hnd).1 htmem
      have hgi : findA a2 i = findA a i :=
        hsame i (List.mem_cons_self i _) hit
      refine chainB_cons_iff.mpr ⟨rfl, nd, hgi.trans hndi, ?_⟩
      have hjnext : nd.next = some j := by
        obtain ⟨hcj, _⟩ := chainB_cons_iff.mp hrest
        exact hcj
      show chainB a2 nd.next ((j :: rest2) ++ [n]) = true
      exact ih nd.next t tnd hrest hlast (List.nodup_cons.mp hnd).2
        (fun x hx hxt => hsame x (List.mem_cons_of_mem _ hx) hxt) ht ht2 hn

/-! ### Characterizations of unlink, push and pop on well-shaped inputs -/

theorem unlink_isolated {s : St K V} {i : NodeId} {nd : Node K V}
    (h : getN s i = some nd) (hp : nd.prev = none) (hq : nd.next = none) :
    unlink s i = some s := by
  obtain ⟨p, nx, k, v⟩ := nd
  simp only at hp hq
  subst hp; subst hq
  have hf : findA s.arena i = some (⟨none, none, k, v⟩ : Node K V) := h
  simp only [unlink, getN, hf, setN, setA_of_findA_eq hf]

theorem unlink_head {s : St K V} {i j : NodeId} {nd jnd : Node K V}
    (h : getN s i = some nd) (hp : nd.prev = none) (hq : nd.next = some j)
    (hj : getN s j = some jnd) (hji : j ≠ i) :
    unlink s i = some { s with
      arena := setA (setA s.arena j { jnd with prev := none }) i
        ⟨none, none, nd.key, nd.value⟩ } := by
  obtain ⟨p, nx, k, v⟩ := nd
  simp only at hp hq
  subst hp; subst hq
  have hf : findA s.arena i = some (⟨none, some j, k, v⟩ : Node K V) := h
  have hfj : findA s.arena j = some jnd := hj
  have h1 : findA (setA s.arena j { jnd with prev := none }) i
      = some (⟨none, some j, k, v⟩ : Node K V) := by
    rw [findA_setA_ne (Ne.symm hji)]; exact hf
  have h2 : findA (setA (setA s.arena j { jnd with prev := none }) i
      (⟨none, none, k, v⟩ : Node K V)) i
      = some (⟨none, none, k, v⟩ : Node K V) :=
    findA_setA_self h1
  simp only [unlink, getN, hf, hfj, setN, h1, h2, setA_setA]

theorem push_empty {s : St K V} {n : NodeId} {nnd : Node K V}
    (hn : getN s n = some nnd) (hp : nnd.prev = none) (hq : nnd.next = none)
    (hh : s.head = none) :
    push s n
      = some { s with head := some n, tail := some n, len := s.len + 1 } := by
  have hu := unlink_isolated hn hp hq
  simp only [push, hu, hh]

theorem push_single {s : St K V} {n h : NodeId} {nnd hd : Node K V}
    (hn : getN s n = some nnd) (hp : nnd.prev = none) (hq : nnd.next = none)
    (hh : s.head = some h) (ht : s.tail = some h) (hgh : getN s h = some hd) :
    push s n = some { s with
      arena := setA s.arena h { hd with next := some n },
      tail := some n, len := s.len + 1 } := by
  have hu := unlink_isolated hn hp hq
  have hf : findA s.arena h = some hd := hgh
  simp [push, hu, hh, ht, getN, hf, setN]

theorem push_long {s : St K V} {n t : NodeId} {nnd td : Node K V}
    (hn : getN s n = some nnd) (hp : nnd.prev = none) (hq : nnd.next = none)
    (hne : s.head ≠ none) (hht : s.head ≠ s.tail) (ht : s.tail = some t)
    (hgt : getN s t = some td) (htn : t ≠ n) :
    push s n = some { s with
      arena := setA (setA s.arena t { td with next := some n }) n
        { nnd with prev := some t },
      tail := some n, len := s.len + 1 } := by
  have hu := unlink_isolated hn hp hq
  have hf : findA s.arena t = some td := hgt
  have h1 : findA (setA s.arena t { td with next := some n }) n = some nnd := by
    rw [findA_setA_ne (Ne.symm htn)]; exact hn
  cases hsh : s.head with
  | none => exact absurd hsh hne
  | some h =>
    rw [hsh] at hht
    have hht2 : ¬(some h = some t) := fun hc => hht (ht ▸ hc)
    simp [push, hu, hsh, ht, hht2, getN, hf, setN, h1]

theorem pop_single {s : St K V} {h : NodeId} {nd : Node K V}
    (hh : s.head = some h) (hg : getN s h = some nd)
    (hp : nd.prev = none) (hq : nd.next = none) (hl : s.len = 1) :
    pop s = some (some h, { s with head := none, tail := none, len := 0 }) := by
  have hu := unlink_isolated hg hp hq
  simp [pop, hh, hg, hu, hq, hl]

theorem pop_long {s : St K V} {h j : NodeId} {nd jnd : Node K V}
    (hh : s.head = some h) (hg : getN s h = some nd) (hp : nd.prev = none)
    (hq : nd.next = some j) (hj : getN s j = some jnd) (hji : j ≠ h)
    (hl : 2 ≤ s.len) :
    pop s = some (some h, { s with
      arena := setA (setA s.arena j { jnd with prev := none }) h
        ⟨none, none, nd.key, nd.value⟩,
      head := some j, len := s.len - 1 }) := by
  have hu := unlink_head hg hp hq hj hji
  have hlz : ¬(s.len - 1 = 0) := by omega
  simp [pop, hh, hg, hu, hq, hlz]

/-! ### Invariant preservation for pruning -/

theorem headPrev_of {s : St K V} {i : NodeId} {nd : Node K V}
    (h6 : headPrevB s = true) (hh : s.head = some i)
    (hg : getN s i = some nd) : nd.prev = none := by
  simp only [headPrevB, hh, hg, decide_eq_true_eq] at h6
  exact h6

theorem index_after_erase {s : St K V} {ids : List NodeId} {i : NodeId}
    {nd : Node K V}
    (h2 : (i :: ids).Nodup)
    (h7 : List.Perm (s.index.map Prod.snd) (i :: ids))
    (h8 : (s.index.map Prod.fst).Nodup)
    (h9 : ∀ e ∈ s.index, (getN s e.2).map Node.key = some e.1)
    (hg : getN s i = some nd) :
    List.Perm ((merase s.index nd.key).map Prod.snd) ids ∧
    ((merase s.index nd.key).map Prod.fst).Nodup ∧
    (∀ e ∈ merase s.index nd.key, e ∈ s.index ∧ e.2 ≠ i) ∧
    (merase s.index nd.key).length + 1 = s.index.length := by
  have himem : i ∈ s.index.map Prod.snd := h7.mem_iff.mpr (List.mem_cons_self i ids)
  obtain ⟨e, hemem, he2⟩ := List.mem_map.mp himem
  have he1 : e.1 = nd.key := by
    have h9e := h9 e hemem
    rw [he2, hg] at h9e
    simpa using h9e.symm
  have hei : e = (nd.key, i) := by
    obtain ⟨a, b⟩ := e
    simp only at he1 he2
    rw [he1, he2]
  rw [hei] at hemem
  have hfind : mfind s.index nd.key = some i := mfind_of_mem_nodup h8 hemem
  obtain ⟨m1, m2, hm, hk1, hme⟩ := merase_decomp hfind
  have hsndperm : List.Perm ((merase s.index nd.key).map Prod.snd) ids := by
    have hmap : s.index.map Prod.snd
        = m1.map Prod.snd ++ i :: m2.map Prod.snd := by
      rw [hm]; simp
    have hmid : List.Perm (m1.map Prod.snd ++ i :: m2.map Prod.snd)
        (i :: (m1.map Prod.snd ++ m2.map Prod.snd)) := List.perm_middle
    have : List.Perm (i :: (m1.map Prod.snd ++ m2.map Prod.snd)) (i :: ids) :=
      (hmid.symm.trans (hmap ▸ h7))
    have hinv := this.cons_inv
    rw [hme]
    simpa using hinv
  have hkeysnd : ((merase s.index nd.key).map Prod.fst).Nodup :=
    List.Nodup.sublist (merase_sublist.map Prod.fst) h8
  have hmem2 : ∀ e2 ∈ merase s.index nd.key, e2 ∈ s.index ∧ e2.2 ≠ i := by
    intro e2 he2m
    constructor
    · rw [hme] at he2m
      rw [hm]
      rcases List.mem_append.mp he2m with hl | hr
      · exact List.mem_append.mpr (Or.inl hl)
      · exact List.mem_append.mpr (Or.inr (List.mem_cons_of_mem _ hr))
    · intro hcon
      have : e2.2 ∈ (merase s.index nd.key).map Prod.snd :=
        List.mem_map.mpr ⟨e2, he2m, rfl⟩
      rw [hcon] at this
      have : i ∈ ids := hsndperm.mem_iff.mp this
      exact (List.nodup_cons.mp h2).1 this
  have hlen : (merase s.index nd.key).length + 1 = s.index.length := by
    rw [hme, hm]; simp only [List.length_append, List.length_cons]; omega
  exact ⟨hsndperm, hkeysnd, hmem2, hlen⟩

theorem pruneBody_wf {s : St K V} {i : NodeId} {rest : List NodeId}
    (hw : wfP s (i :: rest)) :
    ∃ s3, pruneBody s = some s3 ∧ wfP s3 rest
      ∧ s3.index.length + 1 = s.index.length
      ∧ s3.maxSize = s.maxSize ∧ s3.elasticity = s.elasticity
      ∧ s3.nextId = s.nextId
      ∧ (∀ k, k ∈ s3.index.map Prod.fst → k ∈ s.index.map Prod.fst) := by
  obtain ⟨h1, h2, h3, h4, h5, h6, h7, h8, h9, h10⟩ := hw
  obtain ⟨hh, nd, hg, hrest⟩ := chainB_cons_iff.mp h1
  have hp : nd.prev = none := headPrev_of h6 hh hg
  obtain ⟨hsndperm, hkeysnd, hmem2, hlen⟩ :=
    index_after_erase h2 h7 h8 h9 hg
  have hsubk : ∀ k, k ∈ (merase s.index nd.key).map Prod.fst →
      k ∈ s.index.map Prod.fst := by
    intro k hk
    obtain ⟨e, he, hek⟩ := List.mem_map.mp hk
    exact List.mem_map.mpr ⟨e, (hmem2 e he).1, hek⟩
  cases rest with
  | nil =>
    have hq : nd.next = none := chainB_nil_iff.mp hrest
    have hl1 : s.len = 1 := by simpa using h4
    have hpop := pop_single hh hg hp hq hl1
    have hm0 : merase s.index nd.key = [] := by
      have hle := hsndperm.length_eq
      simp only [List.length_nil, List.length_map] at hle
      exact List.eq_nil_of_length_eq_zero hle
    have hbody : pruneBody s = some { s with
        arena := eraseA s.arena i,
        head := none, tail := none, len := 0,
        index := merase s.index nd.key } := by
      simp only [pruneBody, hpop]
      rw [show getN { s with head := none, tail := none, len := 0 } i
            = some nd from hg]
    refine ⟨_, hbody, ?_, ?_, rfl, rfl, rfl, hsubk⟩
    · refine ⟨rfl, List.nodup_nil, ?_, rfl, rfl, rfl, ?_, ?_, ?_, ?_⟩
      · show List.Perm (idsOfArena (eraseA s.arena i)) []
        rw [idsOfArena_eraseA]
        have hpe := h3.erase i
        simpa using hpe
      · simpa [hm0] using hsndperm
      · simpa [hm0] using hkeysnd
      · simp [hm0]
      · simp
    · simpa using hlen
  | cons j rest2 =>
    obtain ⟨hnj, jnd, hgj, hrest2⟩ := chainB_cons_iff.mp hrest
    have hij : i ≠ j := by
      intro hcon
      exact (List.nodup_cons.mp h2).1 (hcon ▸ List.mem_cons_self j rest2)
    have hlen2 : 2 ≤ s.len := by
      rw [h4]; simp
    have hpop := pop_long hh hg hp hnj hgj (Ne.symm hij) hlen2
    have hgi2 : findA (setA (setA s.arena j { jnd with prev := none }) i
        (⟨none, none, nd.key, nd.value⟩ : Node K V)) i
        = some (⟨none, none, nd.key, nd.value⟩ : Node K V) := by
      apply findA_setA_self
      rw [findA_setA_ne hij]
      exact hg
    have hfj2 : findA (setA (setA s.arena j { jnd with prev := none }) i
        (⟨none, none, nd.key, nd.value⟩ : Node K V)) j
        = some { jnd with prev := none } := by
      rw [findA_setA_ne (Ne.symm hij)]
      exact findA_setA_self hgj
    have hfx2 : ∀ x, x ≠ i → x ≠ j →
        findA (setA (setA s.arena j { jnd with prev := none }) i
          (⟨none, none, nd.key, nd.value⟩ : Node K V)) x = findA s.arena x := by
      intro x hxi hxj
      rw [findA_setA_ne hxi, findA_setA_ne hxj]
    have hbody : pruneBody s = some { s with
        arena := eraseA (setA (setA s.arena j { jnd with prev := none }) i
          (⟨none, none, nd.key, nd.value⟩ : Node K V)) i,
        head := some j, len := s.len - 1,
        index := merase s.index nd.key } := by
      simp only [pruneBody, hpop]
      rw [show getN { s with
            arena := setA (setA s.arena j { jnd with prev := none }) i
              (⟨none, none, nd.key, nd.value⟩ : Node K V),
            head := some j, len := s.len - 1 } i
          = some (⟨none, none, nd.key, nd.value⟩ : Node K V) from hgi2]
    have hxne : ∀ x ∈ j :: rest2, x ≠ i := by
      intro x hx hcon
      exact (List.nodup_cons.mp h2).1 (hcon ▸ hx)
    have hfer : ∀ x ∈ j :: rest2,
        findA (eraseA (setA (setA s.arena j { jnd with prev := none }) i
          (⟨none, none, nd.key, nd.value⟩ : Node K V)) i) x
          = findA (setA (setA s.arena j { jnd with prev := none }) i
          (⟨none, none, nd.key, nd.value⟩ : Node K V)) x := by
      intro x hx
      exact findA_eraseA_ne (hxne x hx)
    refine ⟨_, hbody, ?_, ?_, rfl, rfl, rfl, hsubk⟩
    · refine ⟨?_, (List.nodup_cons.mp h2).2, ?_, ?_, ?_, ?_, hsndperm,
        hkeysnd, ?_, ?_⟩
      · -- the chain of the new state
        show chainB (eraseA (setA (setA s.arena j { jnd with prev := none }) i
          (⟨none, none, nd.key, nd.value⟩ : Node K V)) i) (some j)
          (j :: rest2) = true
        have hcg : ∀ x ∈ j :: rest2,
            (findA (eraseA (setA (setA s.arena j { jnd with prev := none }) i
              (⟨none, none, nd.key, nd.value⟩ : Node K V)) i) x).map Node.next
              = (findA s.arena x).map Node.next := by
          intro x hx
          rw [hfer x hx]
          by_cases hxj : x = j
          · subst hxj
            rw [hfj2, hgj]
            rfl
          · rw [hfx2 x (hxne x hx) hxj]
        rw [chainB_congr s.arena _ (j :: rest2) (some j) hcg]
        rw [show (some j) = nd.next from hnj.symm]
        exact hrest
      · show List.Perm (idsOfArena (eraseA (setA (setA s.arena j
          { jnd with prev := none }) i
          (⟨none, none, nd.key, nd.value⟩ : Node K V)) i)) (j :: rest2)
        rw [idsOfArena_eraseA, idsOfArena_setA, idsOfArena_setA]
        have hpe := h3.erase i
        rw [List.erase_cons_head] at hpe
        exact hpe
      · show s.len - 1 = (j :: rest2).length
        rw [h4]; simp
      · show s.tail = (j :: rest2).getLast?
        rw [h5, List.getLast?_cons_cons]
      · show headPrevB _ = true
        have hj3 : findA (eraseA (setA (setA s.arena j
            { jnd with prev := none }) i
            (⟨none, none, nd.key, nd.value⟩ : Node K V)) i) j
            = some { jnd with prev := none } := by
          rw [findA_eraseA_ne (Ne.symm hij)]
          exact hfj2
        simp [headPrevB, getN, hj3]
      · intro e he
        obtain ⟨hein, hei⟩ := hmem2 e he
        have h9e := h9 e hein
        show (findA (eraseA (setA (setA s.arena j { jnd with prev := none }) i
          (⟨none, none, nd.key, nd.value⟩ : Node K V)) i) e.2).map Node.key
          = some e.1
        rw [findA_eraseA_ne hei]
        by_cases hej : e.2 = j
        · rw [hej, hfj2]
          rw [hej] at h9e
          rw [show getN s j = some jnd from hgj] at h9e
          simpa using h9e
        · rw [hfx2 e.2 hei hej]
          exact h9e
      · intro x hx
        exact h10 x (List.mem_cons_of_mem _ hx)
    · simpa using hlen

theorem pruneLoop_wf :
    ∀ (fuel : Nat) (s : St K V) (ids : List NodeId) (count : Nat),
      wfP s ids →
      s.index.length - s.maxSize < fuel →
      ∃ s2, pruneLoop s fuel count
          = some (s2, count + (s.index.length - s.maxSize))
        ∧ wfP s2 (ids.drop (s.index.length - s.maxSize))
        ∧ s2.index.length = s.index.length - (s.index.length - s.maxSize)
        ∧ s2.maxSize = s.maxSize ∧ s2.elasticity = s.elasticity
        ∧ s2.nextId = s.nextId
        ∧ (∀ k, k ∈ s2.index.map Prod.fst → k ∈ s.index.map Prod.fst) := by
  intro fuel
  induction fuel with
  | zero =>
    intro s ids count hw hlt
    omega
  | succ f ih =>
    intro s ids count hw hlt
    by_cases hcond : s.maxSize < s.index.length
    · -- the loop runs at least once
      cases ids with
      | nil =>
        exfalso
        obtain ⟨_, _, _, _, _, _, h7, _, _, _⟩ := hw
        have hlen0 := h7.length_eq
        simp only [List.length_nil, List.length_map] at hlen0
        omega
      | cons i rest =>
        obtain ⟨s3, hbody, hwf3, hlen3, hmax3, hel3, hnext3, hsub3⟩ :=
          pruneBody_wf hw
        have hflt : s3.index.length - s3.maxSize < f := by omega
        obtain ⟨s2, hloop, hwf2, hlen2, hmax2, hel2, hnext2, hsub2⟩ :=
          ih s3 rest (count + 1) hwf3 hflt
        have harith : count + 1 + (s3.index.length - s3.maxSize)
            = count + (s.index.length - s.maxSize) := by omega
        have hdrop : rest.drop (s3.index.length - s3.maxSize)
            = (i :: rest).drop (s.index.length - s.maxSize) := by
          have hd : s.index.length - s.maxSize
              = (s3.index.length - s3.maxSize) + 1 := by omega
          rw [hd, List.drop_succ_cons]
        refine ⟨s2, ?_, ?_, by omega, hmax2.trans hmax3, hel2.trans hel3,
          hnext2.trans hnext3, ?_⟩
        · simp only [pruneLoop, if_pos hcond, hbody]
          rw [hloop, harith]
        · rw [← hdrop]
          exact hwf2
        · intro k hk
          exact hsub3 k (hsub2 k hk)
    · -- the loop exits immediately
      have hz : s.index.length - s.maxSize = 0 := by omega
      refine ⟨s, ?_, ?_, by omega, rfl, rfl, rfl, fun k hk => hk⟩
      · simp only [pruneLoop, if_neg hcond, hz]
        rfl
      · rw [hz]
        exact hw

theorem prune_wf {s : St K V} {ids : List NodeId} (hw : wfP s ids) :
    (s.maxSize = 0 ∨ s.index.length < s.maxSize + s.elasticity →
      prune s = some (s, 0)) ∧
    (¬(s.maxSize = 0 ∨ s.index.length < s.maxSize + s.elasticity) →
      ∃ s2, prune s = some (s2, s.index.length - s.maxSize)
        ∧ wfP s2 (ids.drop (s.index.length - s.maxSize))
        ∧ s2.index.length = s.maxSize
        ∧ s2.maxSize = s.maxSize ∧ s2.elasticity = s.elasticity
        ∧ s2.nextId = s.nextId
        ∧ (∀ k, k ∈ s2.index.map Prod.fst → k ∈ s.index.map Prod.fst)) := by
  constructor
  · intro hc
    simp only [prune, if_pos hc]
  · intro hc
    obtain ⟨hm0, hge⟩ := not_or.mp hc
    obtain ⟨s2, hloop, hwf2, hlen2, hmax2, hel2, hnext2, hsub2⟩ :=
      pruneLoop_wf (s.index.length + 1) s ids 0 hw (by omega)
    refine ⟨s2, ?_, hwf2, by omega, hmax2, hel2, hnext2, hsub2⟩
    simp only [prune, if_neg hc]
    rw [hloop]
    simp

/-! ### Invariant preservation for new-key insertion -/

theorem push_fresh_wf {s : St K V} {ids : List NodeId} (k : K) (v : V)
    (hw : wfP s ids) (hk : k ∉ s.index.map Prod.fst) :
    ∃ sp, push { s with
        arena := s.arena ++ [(s.nextId, ⟨none, none, k, v⟩)],
        nextId := s.nextId + 1,
        index := mput s.index k s.nextId } s.nextId = some sp
      ∧ wfP sp (ids ++ [s.nextId])
      ∧ sp.index = s.index ++ [(k, s.nextId)]
      ∧ sp.maxSize = s.maxSize ∧ sp.elasticity = s.elasticity
      ∧ sp.nextId = s.nextId + 1 := by
  obtain ⟨h1, h2, h3, h4, h5, h6, h7, h8, h9, h10⟩ := hw
  have hnotin : s.nextId ∉ ids := by
    intro hmem
    exact absurd (h10 _ hmem) (Nat.lt_irrefl _)
  have hfnone : findA s.arena s.nextId = none := by
    rw [findA_eq_none_iff]
    intro hmem
    exact hnotin (h3.mem_iff.mp hmem)
  have hnode : findA (s.arena ++ [(s.nextId, (⟨none, none, k, v⟩ : Node K V))])
      s.nextId = some (⟨none, none, k, v⟩ : Node K V) := by
    rw [findA_append_right hfnone]
    simp [findA]
  have hfx : ∀ x ∈ ids,
      findA (s.arena ++ [(s.nextId, (⟨none, none, k, v⟩ : Node K V))]) x
        = findA s.arena x := by
    intro x hx
    obtain ⟨nd, hnd⟩ := findA_isSome_of_mem (h3.symm.mem_iff.mp hx)
    rw [findA_append_left hnd, hnd]
  have hxn : ∀ x ∈ ids, x ≠ s.nextId := fun x hx hc => hnotin (hc ▸ hx)
  have hidx : mput s.index k s.nextId = s.index ++ [(k, s.nextId)] :=
    mput_of_not_mem hk
  have hidsnd : List.Perm ((s.index ++ [(k, s.nextId)]).map Prod.snd)
      (ids ++ [s.nextId]) := by
    rw [List.map_append]
    exact h7.append (List.Perm.refl _)
  have hidfst : ((s.index ++ [(k, s.nextId)]).map Prod.fst).Nodup := by
    rw [List.map_append]
    refine List.Nodup.append h8 (List.nodup_singleton k) ?_
    intro x hx hx2
    simp only [List.map_cons, List.map_nil, List.mem_singleton] at hx2
    exact absurd (hx2 ▸ hx) hk
  have hnodup2 : (ids ++ [s.nextId]).Nodup := by
    refine List.Nodup.append h2 (List.nodup_singleton _) ?_
    intro x hx hx2
    simp only [List.mem_singleton] at hx2
    exact absurd (hx2 ▸ hx) hnotin
  have hfresh2 : ∀ x ∈ ids ++ [s.nextId], x < s.nextId + 1 := by
    intro x hx
    rcases List.mem_append.mp hx with hx1 | hx2
    · exact Nat.lt_succ_of_lt (h10 x hx1)
    · simp only [List.mem_singleton] at hx2
      subst hx2
      exact Nat.lt_succ_self _
  have haperm : List.Perm (idsOfArena
      (s.arena ++ [(s.nextId, (⟨none, none, k, v⟩ : Node K V))]))
      (ids ++ [s.nextId]) := by
    rw [show idsOfArena (s.arena ++ [(s.nextId, (⟨none, none, k, v⟩ : Node K V))])
        = idsOfArena s.arena ++ [s.nextId] by simp [idsOfArena]]
    exact h3.append (List.Perm.refl _)
  cases ids with
  | nil =>
    have hh : s.head = none := chainB_nil_iff.mp h1
    have hpush := push_empty (s := { s with
        arena := s.arena ++ [(s.nextId, (⟨none, none, k, v⟩ : Node K V))],
        nextId := s.nextId + 1,
        index := mput s.index k s.nextId })
      (show getN _ s.nextId = some (⟨none, none, k, v⟩ : Node K V) from hnode)
      rfl rfl (show _ = none from hh)
    refine ⟨_, hpush, ?_, by rw [hidx], rfl, rfl, rfl⟩
    have hil : s.index = [] := by
      cases hi : s.index with
      | nil => rfl
      | cons y tl =>
        rw [hi] at h7
        have hli := h7.length_eq
        simp at hli
    refine ⟨?_, hnodup2, haperm, ?_, ?_, ?_, ?_, ?_, ?_, ?_⟩
    · show chainB (s.arena ++ [(s.nextId, _)]) (some s.nextId)
        ([] ++ [s.nextId]) = true
      simp only [List.nil_append]
      exact chainB_cons_iff.mpr ⟨rfl, _, hnode, by simp [chainB]⟩
    · show s.len + 1 = ([] ++ [s.nextId] : List NodeId).length
      simp only [h4]
      rfl
    · show some s.nextId = ([] ++ [s.nextId] : List NodeId).getLast?
      rfl
    · show headPrevB _ = true
      simp [headPrevB, getN, hnode]
    · show List.Perm ((mput s.index k s.nextId).map Prod.snd) ([] ++ [s.nextId])
      rw [hidx, hil]
      simp
    · show ((mput s.index k s.nextId).map Prod.fst).Nodup
      rw [hidx, hil]
      simp
    · rw [hidx, hil]
      intro e he
      simp only [List.nil_append, List.mem_singleton] at he
      subst he
      show (findA (s.arena ++ _) s.nextId).map Node.key = some k
      rw [hnode]
      rfl
    · exact hfresh2
  | cons i0 rest0 =>
    obtain ⟨hc1, hd0, hgh0, hch0⟩ := chainB_cons_iff.mp h1
    have hhp : hd0.prev = none := headPrev_of h6 hc1 hgh0
    have hmem0 : i0 ∈ i0 :: rest0 := List.mem_cons_self i0 rest0
    have hi0n : i0 ≠ s.nextId := hxn i0 hmem0
    have hgh1 : findA (s.arena ++ [(s.nextId, (⟨none, none, k, v⟩ : Node K V))])
        i0 = some hd0 := by
      rw [hfx i0 hmem0]
      exact hgh0
    cases rest0 with
    | nil =>
      -- singleton list: the head == tail branch of push
      have ht : s.tail = some i0 := by simpa using h5
      have hpush := push_single (s := { s with
          arena := s.arena ++ [(s.nextId, (⟨none, none, k, v⟩ : Node K V))],
          nextId := s.nextId + 1,
          index := mput s.index k s.nextId })
        (show getN _ s.nextId = some (⟨none, none, k, v⟩ : Node K V) from hnode)
        rfl rfl (show _ = some i0 from hc1) (show _ = some i0 from ht)
        (show getN _ i0 = some hd0 from hgh1)
      refine ⟨_, hpush, ?_, by rw [hidx], rfl, rfl, rfl⟩
      have hA : findA (setA (s.arena ++ [(s.nextId,
          (⟨none, none, k, v⟩ : Node K V))])
          i0 { hd0 with next := some s.nextId }) i0
          = some { hd0 with next := some s.nextId } := findA_setA_self hgh1
      have hAn : findA (setA (s.arena ++ [(s.nextId,
          (⟨none, none, k, v⟩ : Node K V))])
          i0 { hd0 with next := some s.nextId }) s.nextId
          = some (⟨none, none, k, v⟩ : Node K V) := by
        rw [findA_setA_ne (Ne.symm hi0n)]
        exact hnode
      refine ⟨?_, hnodup2, ?_, ?_, ?_, ?_, ?_, ?_, ?_, ?_⟩
      · show chainB _ s.head ([i0] ++ [s.nextId]) = true
        rw [hc1]
        refine chainB_cons_iff.mpr ⟨rfl, _, hA, ?_⟩
        show chainB _ (some s.nextId) [s.nextId] = true
        exact chainB_cons_iff.mpr ⟨rfl, _, hAn, by simp [chainB]⟩
      · show List.Perm (idsOfArena (setA _ i0 _)) ([i0] ++ [s.nextId])
        rw [idsOfArena_setA]
        exact haperm
      · show s.len + 1 = ([i0] ++ [s.nextId] : List NodeId).length
        simp only [h4]
        rfl
      · show some s.nextId = ([i0] ++ [s.nextId] : List NodeId).getLast?
        rfl
      · show headPrevB _ = true
        simp only [headPrevB, hc1, getN, hA]
        simp [hhp]
      · show List.Perm ((mput s.index k s.nextId).map Prod.snd)
          ([i0] ++ [s.nextId])
        rw [hidx]
        exact hidsnd
      · rw [hidx]
        exact hidfst
      · rw [hidx]
        intro e he
        rcases List.mem_append.mp he with hold | hnew
        · have h9e := h9 e hold
          have he2 : e.2 ∈ [i0] := h7.mem_iff.mp (List.mem_map.mpr ⟨e, hold, rfl⟩)
          have hei0 : e.2 = i0 := by simpa using he2
          show (findA (setA _ i0 _) e.2).map Node.key = some e.1
          rw [hei0, hA]
          rw [hei0] at h9e
          rw [show getN s i0 = some hd0 from hgh0] at h9e
          simpa using h9e
        · simp only [List.mem_singleton] at hnew
          subst hnew
          show (findA (setA _ i0 _) s.nextId).map Node.key = some k
          rw [hAn]
          rfl
      · exact hfresh2
    | cons i1 rest1 =>
      -- length at least two: the generic tail-append branch of push
      have hex : ∃ t, (i0 :: i1 :: rest1).getLast? = some t := by
        cases hgl : (i0 :: i1 :: rest1).getLast? with
        | none =>
          exfalso
          have hs2 : ((i0 :: i1 :: rest1).getLast?).isSome := by
            rw [List.getLast?_isSome]
            simp
          rw [hgl] at hs2
          simp at hs2
        | some t => exact ⟨t, rfl⟩
      obtain ⟨t, ht⟩ := hex
      have htmem : t ∈ i0 :: i1 :: rest1 := mem_of_getLastQ ht
      obtain ⟨td, htd⟩ := chainB_mem_isSome h1 t htmem
      have hi0t : i0 ≠ t := by
        have htmem2 : t ∈ i1 :: rest1 := by
          rw [List.getLast?_cons_cons] at ht
          exact mem_of_getLastQ ht
        intro hcon
        exact (List.nodup_cons.mp h2).1 (hcon ▸ htmem2)
      have htn : t ≠ s.nextId := hxn t htmem
      have hgt1 : findA (s.arena ++ [(s.nextId,
          (⟨none, none, k, v⟩ : Node K V))]) t = some td := by
        rw [hfx t htmem]
        exact htd
      have hpush := push_long (s := { s with
          arena := s.arena ++ [(s.nextId, (⟨none, none, k, v⟩ : Node K V))],
          nextId := s.nextId + 1,
          index := mput s.index k s.nextId })
        (show getN _ s.nextId = some (⟨none, none, k, v⟩ : Node K V) from hnode)
        rfl rfl
        (show s.head ≠ none by rw [hc1]; exact fun hcc => by cases hcc)
        (show s.head ≠ s.tail by
          rw [hc1, h5, ht]
          exact fun hcc => hi0t (Option.some_inj.mp hcc))
        (show s.tail = some t from h5.trans ht)
        (show getN _ t = some td from hgt1)
        htn
      refine ⟨_, hpush, ?_, by rw [hidx], rfl, rfl, rfl⟩
      have hAt : findA (setA (s.arena ++ [(s.nextId,
          (⟨none, none, k, v⟩ : Node K V))]) t { td with next := some s.nextId })
          t = some { td with next := some s.nextId } := findA_setA_self hgt1
      have hAn0 : findA (setA (s.arena ++ [(s.nextId,
          (⟨none, none, k, v⟩ : Node K V))]) t { td with next := some s.nextId })
          s.nextId = some (⟨none, none, k, v⟩ : Node K V) := by
        rw [findA_setA_ne (Ne.symm htn)]
        exact hnode
      have hAn : findA (setA (setA (s.arena ++ [(s.nextId,
          (⟨none, none, k, v⟩ : Node K V))]) t { td with next := some s.nextId })
          s.nextId { (⟨none, none, k, v⟩ : Node K V) with prev := some t })
          s.nextId
          = some { (⟨none, none, k, v⟩ : Node K V) with prev := some t } :=
        findA_setA_self hAn0
      have hAt2 : findA (setA (setA (s.arena ++ [(s.nextId,
          (⟨none, none, k, v⟩ : Node K V))]) t { td with next := some s.nextId })
          s.nextId { (⟨none, none, k, v⟩ : Node K V) with prev := some t }) t
          = some { td with next := some s.nextId } := by
        rw [findA_setA_ne htn]
        exact hAt
      have hAx : ∀ x ∈ i0 :: i1 :: rest1, x ≠ t →
          findA (setA (setA (s.arena ++ [(s.nextId,
            (⟨none, none, k, v⟩ : Node K V))]) t
            { td with next := some s.nextId })
            s.nextId { (⟨none, none, k, v⟩ : Node K V) with prev := some t }) x
            = findA s.arena x := by
        intro x hx hxt
        rw [findA_setA_ne (hxn x hx), findA_setA_ne hxt]
        exact hfx x hx
      refine ⟨?_, hnodup2, ?_, ?_, ?_, ?_, ?_, ?_, ?_, ?_⟩
      · show chainB _ s.head ((i0 :: i1 :: rest1) ++ [s.nextId]) = true
        refine chainB_snoc (i0 :: i1 :: rest1) s.head t td h1 ht h2 hAx htd ?_ ?_
        · rw [hAt2]
          rfl
        · exact ⟨_, hAn, rfl⟩
      · show List.Perm (idsOfArena (setA (setA _ t _) s.nextId _))
          ((i0 :: i1 :: rest1) ++ [s.nextId])
        rw [idsOfArena_setA, idsOfArena_setA]
        exact haperm
      · show s.len + 1 = ((i0 :: i1 :: rest1) ++ [s.nextId] : List NodeId).length
        simp only [h4]
        simp
      · show some s.nextId
          = ((i0 :: i1 :: rest1) ++ [s.nextId] : List NodeId).getLast?
        rw [List.getLast?_concat]
      · show headPrevB _ = true
        have hA0 : findA (setA (setA (s.arena ++ [(s.nextId,
            (⟨none, none, k, v⟩ : Node K V))]) t
            { td with next := some s.nextId })
            s.nextId { (⟨none, none, k, v⟩ : Node K V) with prev := some t }) i0
            = some hd0 := by
          rw [hAx i0 hmem0 hi0t]
          exact hgh0
        simp only [headPrevB, hc1, getN, hA0]
        simp [hhp]
      · show List.Perm ((mput s.index k s.nextId).map Prod.snd)
          ((i0 :: i1 :: rest1) ++ [s.nextId])
        rw [hidx]
        exact hidsnd
      · rw [hidx]
        exact hidfst
      · rw [hidx]
        intro e he
        rcases List.mem_append.mp he with hold | hnew
        · have h9e := h9 e hold
          have he2 : e.2 ∈ i0 :: i1 :: rest1 :=
            h7.mem_iff.mp (List.mem_map.mpr ⟨e, hold, rfl⟩)
          show (findA (setA (setA _ t _) s.nextId _) e.2).map Node.key = some e.1
          by_cases het : e.2 = t
          · rw [het, hAt2]
            rw [het] at h9e
            rw [show getN s t = some td from htd] at h9e
            simpa using h9e
          · rw [hAx e.2 he2 het]
            exact h9e
        · simp only [List.mem_singleton] at hnew
          subst hnew
          show (findA (setA (setA _ t _) s.nextId _) s.nextId).map Node.key
            = some k
          rw [hAn]
          rfl
      · exact hfresh2

theorem insert_fresh_wf {s : St K V} {ids : List NodeId} (k : K) (v : V)
    (hw : wfP s ids) (hk : mfind s.index k = none) :
    ∃ s2 d, insert s k v = some s2
      ∧ wfP s2 ((ids ++ [s.nextId]).drop d)
      ∧ d = (if s.maxSize = 0 ∨ s.index.length + 1 < s.maxSize + s.elasticity
             then 0 else s.index.length + 1 - s.maxSize)
      ∧ s2.index.length = s.index.length + 1 - d
      ∧ s2.maxSize = s.maxSize ∧ s2.elasticity = s.elasticity
      ∧ (∀ k2, k2 ∈ s2.index.map Prod.fst →
          k2 = k ∨ k2 ∈ s.index.map Prod.fst) := by
  have hknot : k ∉ s.index.map Prod.fst := mfind_eq_none_iff.mp hk
  obtain ⟨sp, hpush, hwfp, hidxp, hmaxp, hela, hnextp⟩ :=
    push_fresh_wf k v hw hknot
  have hsplen : sp.index.length = s.index.length + 1 := by
    rw [hidxp]; simp
  have hspkeys : ∀ k2, k2 ∈ sp.index.map Prod.fst →
      k2 = k ∨ k2 ∈ s.index.map Prod.fst := by
    intro k2 hk2
    rw [hidxp, List.map_append] at hk2
    rcases List.mem_append.mp hk2 with hold | hnew
    · exact Or.inr hold
    · simp only [List.map_cons, List.map_nil, List.mem_singleton] at hnew
      exact Or.inl hnew
  obtain ⟨hnoop, hfire⟩ := prune_wf hwfp
  by_cases hc : s.maxSize = 0 ∨ s.index.length + 1 < s.maxSize + s.elasticity
  · -- the soft zone: prune does nothing
    have hcp : sp.maxSize = 0 ∨ sp.index.length < sp.maxSize + sp.elasticity := by
      rw [hmaxp, hela, hsplen]
      exact hc
    have hpr := hnoop hcp
    refine ⟨sp, 0, ?_, by simpa using hwfp, by simp [hc], by omega, hmaxp,
      hela, hspkeys⟩
    simp only [insert, hk, hpush, hpr]
  · -- pruning fires
    have hcp : ¬(sp.maxSize = 0 ∨ sp.index.length < sp.maxSize + sp.elasticity) := by
      rw [hmaxp, hela, hsplen]
      exact hc
    obtain ⟨s2, hpr, hwf2, hlen2, hmax2, hel2, hnext2, hsub2⟩ := hfire hcp
    have hdval : sp.index.length - sp.maxSize = s.index.length + 1 - s.maxSize := by
      rw [hsplen, hmaxp]
    refine ⟨s2, s.index.length + 1 - s.maxSize, ?_, ?_, by simp [hc], ?_,
      hmax2.trans hmaxp, hel2.trans hela, ?_⟩
    · simp only [insert, hk, hpush, hpr]
    · rw [← hdval]
      exact hwf2
    · obtain ⟨hm0, hge⟩ := not_or.mp hc
      omega
    · intro k2 hk2
      exact hspkeys k2 (hsub2 k2 hk2)

theorem wfP_mkCache (m e : Nat) : wfP (mkCache m e : St K V) [] := by
  refine ⟨rfl, List.nodup_nil, ?_, rfl, rfl, rfl, ?_, ?_, ?_, ?_⟩
  · simp [mkCache, idsOfArena]
  · simp [mkCache]
  · simp [mkCache]
  · intro e he
    simp [mkCache] at he
  · intro x hx
    simp at hx

theorem insertAll_wf :
    ∀ (kvs : List (K × V)) (s : St K V) (ids : List NodeId),
      wfP s ids →
      (kvs.map Prod.fst).Nodup →
      (∀ p ∈ kvs, p.1 ∉ s.index.map Prod.fst) →
      ∃ s1 ids1, insertAll s kvs = some s1 ∧ wfP s1 ids1
        ∧ s1.maxSize = s.maxSize ∧ s1.elasticity = s.elasticity
        ∧ (∀ k2, k2 ∈ s1.index.map Prod.fst →
            k2 ∈ s.index.map Prod.fst ∨ k2 ∈ kvs.map Prod.fst) := by
  intro kvs
  induction kvs with
  | nil =>
    intro s ids hw _ _
    exact ⟨s, ids, rfl, hw, rfl, rfl, fun k2 h => Or.inl h⟩
  | cons kv rest ih =>
    intro s ids hw hnd hnotin
    obtain ⟨k, v⟩ := kv
    have hk : mfind s.index k = none :=
      mfind_eq_none_iff.mpr (hnotin (k, v) (List.mem_cons_self _ _))
    obtain ⟨s2, d, hins, hwf2, hd, hlen2, hmax2, hel2, hsub2⟩ :=
      insert_fresh_wf k v hw hk
    simp only [List.map_cons, List.nodup_cons] at hnd
    have hnotin2 : ∀ p ∈ rest, p.1 ∉ s2.index.map Prod.fst := by
      intro p hp hmem
      rcases hsub2 _ hmem with heq | hmem2
      · have hpm : p.1 ∈ rest.map Prod.fst := List.mem_map.mpr ⟨p, hp, rfl⟩
        rw [heq] at hpm
        exact hnd.1 hpm
      · exact hnotin p (List.mem_cons_of_mem _ hp) hmem2
    obtain ⟨s1, ids1, hall, hwf1, hmax1, hel1, hsub1⟩ :=
      ih s2 _ hwf2 hnd.2 hnotin2
    refine ⟨s1, ids1, ?_, hwf1, hmax1.trans hmax2, hel1.trans hel2, ?_⟩
    · simp only [insertAll, hins]
      exact hall
    · intro k2 hk2
      rcases hsub1 k2 hk2 with hin2 | hinrest
      · rcases hsub2 k2 hin2 with heq | hins0
        · exact Or.inr (by simp [heq])
        · exact Or.inl hins0
      · exact Or.inr (List.mem_cons_of_mem _ (by simpa using hinrest))

/-! ### Claim theorems -/

/-- C1: the specification claims that, for every reachable cache state,
`insert(k, v)` followed by `get(k)` returns `v`.  The code violates this on
a reachable state: after inserting two keys into a fresh cache, `get` of
the second key has no defined result — `List::push`'s `head == tail`
branch never set the second node's `prev`, so `List::remove` nulls `tail`
and the subsequent `List::push` dereferences the null `tail`.  The first
conjunct shows the failing state is reachable; the second evaluates the
crashing `get`. -/
theorem c1_get_after_insert_ub :
    (runOps (mkCache 64 10 : St Nat Nat) [Op.ins 1 10, Op.ins 2 20]).isSome
      = true
    ∧ runOps (mkCache 64 10 : St Nat Nat)
        [Op.ins 1 10, Op.ins 2 20, Op.get 2] = none := by
  decide

/-- C2: the specification claims `tryGet` never fails and on a hit moves
the node to the tail and returns the value.  On the reachable state after
two inserts into a fresh cache, `tryGet` of the second key has no defined
result (the same null-`tail` dereference in `List::push` as for `get`). -/
theorem c2_tryGet_hit_ub :
    (runOps (mkCache 64 10 : St Nat Nat) [Op.ins 1 10, Op.ins 2 20]).isSome
      = true
    ∧ Option.bind
        (runOps (mkCache 64 10 : St Nat Nat) [Op.ins 1 10, Op.ins 2 20])
        (fun s => tryGet s 2 0) = none := by
  decide

/-- C3: the specification claims every sequence of public operations
preserves the recency-list invariant.  The fresh cache satisfies the
invariant, but the reachable state after `insert 1; insert 2; remove 2`
violates it: `remove` set `tail` to the second node's never-assigned null
`prev` while one node remains live, and the remaining head node's `next`
still points at the freed node, so the head-to-tail walk is undefined. -/
theorem c3_list_invariant_violated :
    listInvariant (mkCache 64 10 : St Nat Nat) = true
    ∧ (runOps (mkCache 64 10 : St Nat Nat)
        [Op.ins 1 10, Op.ins 2 20, Op.rem 2]).map listInvariant
        = some false := by
  decide

/-- C4: on a well-formed state, `prune` does nothing (returns the state
unchanged with count 0) when `maxSize = 0` or the index size is below
`maxSize + elasticity`; otherwise it pops and erases exactly enough
least-recently-used head entries to bring the index size down to
`maxSize`: the surviving chain is the suffix `ids.drop (size - maxSize)`
of the recency order and the final size is exactly `maxSize`. -/
theorem c4_prune_policy {s : St K V} {ids : List NodeId} (hw : wfP s ids) :
    (s.maxSize = 0 ∨ s.index.length < s.maxSize + s.elasticity →
      prune s = some (s, 0))
    ∧ (¬(s.maxSize = 0 ∨ s.index.length < s.maxSize + s.elasticity) →
      ∃ s2, prune s = some (s2, s.index.length - s.maxSize)
        ∧ wfP s2 (ids.drop (s.index.length - s.maxSize))
        ∧ size s2 = s.maxSize) := by
  obtain ⟨hnoop, hfire⟩ := prune_wf hw
  refine ⟨hnoop, fun hc => ?_⟩
  obtain ⟨s2, hpr, hwf2, hlen2, _⟩ := hfire hc
  exact ⟨s2, hpr, hwf2, hlen2⟩

/-- C4 witness: the pruning characterization applied to a concrete
well-formed two-entry state with maxSize 1, elasticity 1. -/
theorem c4_prune_policy_witness :
    wfP sampleSt [0, 1]
    ∧ ((sampleSt.maxSize = 0
          ∨ sampleSt.index.length < sampleSt.maxSize + sampleSt.elasticity →
        prune sampleSt = some (sampleSt, 0))
      ∧ (¬(sampleSt.maxSize = 0
          ∨ sampleSt.index.length < sampleSt.maxSize + sampleSt.elasticity) →
        ∃ s2, prune sampleSt
            = some (s2, sampleSt.index.length - sampleSt.maxSize)
          ∧ wfP s2 ([0, 1].drop (sampleSt.index.length - sampleSt.maxSize))
          ∧ size s2 = sampleSt.maxSize)) :=
  ⟨by decide, c4_prune_policy (by decide)⟩

/-- C5: for every sequence of inserts with pairwise-distinct keys into a
fresh cache with maxSize `m > 0` and elasticity `e`, every insert
completes, after each insert the size is at most `m + e`, and whenever the
pruning policy fires during an insert (the size reached `m + e`) the size
right after that insert is at most `m`. -/
theorem c5_insert_unique_size_bound (m e : Nat) (hm : 0 < m)
    (kvs pre : List (K × V)) (kv : K × V) (rest : List (K × V))
    (hsplit : kvs = pre ++ kv :: rest)
    (hnd : (kvs.map Prod.fst).Nodup) :
    ∃ s1 s2, insertAll (mkCache m e : St K V) pre = some s1
      ∧ insert s1 kv.1 kv.2 = some s2
      ∧ size s2 ≤ m + e
      ∧ (m + e ≤ size s1 + 1 → size s2 ≤ m) := by
  subst hsplit
  rw [List.map_append, List.nodup_append] at hnd
  obtain ⟨hnd1, hnd2, hdisj⟩ := hnd
  have hpre0 : ∀ p ∈ pre, p.1 ∉ (mkCache m e : St K V).index.map Prod.fst := by
    intro p _ hmem
    simp [mkCache] at hmem
  obtain ⟨s1, ids1, hall, hwf1, hmax1, hel1, hsub1⟩ :=
    insertAll_wf pre (mkCache m e : St K V) [] (wfP_mkCache m e) hnd1 hpre0
  have hkv : kv.1 ∉ s1.index.map Prod.fst := by
    intro hmem
    rcases hsub1 kv.1 hmem with h0 | hpre
    · simp [mkCache] at h0
    · exact hdisj hpre (by simp)
  obtain ⟨s2, d, hins, hwf2, hd, hlen2, hmax2, hel2, hsub2⟩ :=
    insert_fresh_wf kv.1 kv.2 hwf1 (mfind_eq_none_iff.mpr hkv)
  have hm1 : s1.maxSize = m := hmax1
  have he1 : s1.elasticity = e := hel1
  rw [hm1, he1] at hd
  refine ⟨s1, s2, hall, hins, ?_, ?_⟩
  · show s2.index.length ≤ m + e
    by_cases hcc : m = 0 ∨ s1.index.length + 1 < m + e
    · rw [if_pos hcc] at hd
      rcases hcc with h0 | hlt
      · omega
      · omega
    · rw [if_neg hcc] at hd
      omega
  · intro hge
    show s2.index.length ≤ m
    have hcc : ¬(m = 0 ∨ s1.index.length + 1 < m + e) := by
      intro hor
      rcases hor with h0 | hlt
      · omega
      · show False
        have : size s1 = s1.index.length := rfl
        omega
    rw [if_neg hcc] at hd
    have : size s1 = s1.index.length := rfl
    omega

/-- C5 witness: three distinct-key inserts into a cache with maxSize 2 and
elasticity 1; the third insert reaches the soft cap and prunes to size 2. -/
theorem c5_insert_unique_size_bound_witness :
    (0 < 2 ∧ (([(1, 10), (2, 20), (3, 30)] : List (Nat × Nat)).map
        Prod.fst).Nodup)
    ∧ ∃ s1 s2, insertAll (mkCache 2 1 : St Nat Nat) [(1, 10), (2, 20)]
        = some s1
      ∧ insert s1 (3, 30).1 (3, 30).2 = some s2
      ∧ size s2 ≤ 2 + 1
      ∧ (2 + 1 ≤ size s1 + 1 → size s2 ≤ 2) :=
  ⟨⟨by decide, by decide⟩,
    c5_insert_unique_size_bound 2 1 (by decide) [(1, 10), (2, 20), (3, 30)]
      [(1, 10), (2, 20)] (3, 30) [] rfl (by decide)⟩

/-- C6 counterexample: with maxSize 5 and elasticity 2, the specification
claims the seventh insert (G) yields size 7 with pruning only on the
eighth insert (H).  In fact `prune` fires as soon as the size reaches
`maxSize + elasticity = 7` (its guard skips only while `size <
maxAllowed`), so the seventh insert already prunes back to size 5. -/
theorem c6_scenario_counterexample :
    (insertAll (mkCache 5 2 : St Nat Nat)
        [(1, 1), (2, 2), (3, 3), (4, 4), (5, 5), (6, 6), (7, 7)]).map size
      ≠ some 7
    ∧ (insertAll (mkCache 5 2 : St Nat Nat)
        [(1, 1), (2, 2), (3, 3), (4, 4), (5, 5), (6, 6), (7, 7)]).map size
      = some 5 := by
  decide

/-- C6 amended: capacity 5, elasticity 2; inserting five distinct keys
yields size 5; inserting F yields size 6 with no pruning; inserting G
reaches maxAllowedSize = 7 and immediately triggers pruning back down to
size 5, evicting A and B (the two least-recently touched); the next
insert, H, yields size 6 with no pruning. -/
theorem c6_scenario_amended :
    ((insertAll (mkCache 5 2 : St Nat Nat)
        [(1, 1), (2, 2), (3, 3), (4, 4), (5, 5)]).map size = some 5)
    ∧ ((insertAll (mkCache 5 2 : St Nat Nat)
        [(1, 1), (2, 2), (3, 3), (4, 4), (5, 5), (6, 6)]).map size = some 6)
    ∧ ((insertAll (mkCache 5 2 : St Nat Nat)
        [(1, 1), (2, 2), (3, 3), (4, 4), (5, 5), (6, 6), (7, 7)]).map size
        = some 5)
    ∧ ((insertAll (mkCache 5 2 : St Nat Nat)
        [(1, 1), (2, 2), (3, 3), (4, 4), (5, 5), (6, 6), (7, 7)]).map
        (fun s => [1, 2, 3, 4, 5, 6, 7].map
          (fun q => (mfind s.index q).isSome))
        = some [false, false, true, true, true, true, true])
    ∧ ((insertAll (mkCache 5 2 : St Nat Nat)
        [(1, 1), (2, 2), (3, 3), (4, 4), (5, 5), (6, 6), (7, 7), (8, 8)]).map
          size = some 6) := by
  refine ⟨by decide, by decide, by decide, by decide, by decide⟩

/-- C7: `contains` is exactly an index membership check and does not
mutate the cache state, so any sequence of operations run after it behaves
exactly as if `contains` had not been called (in particular the eviction
order is unchanged). -/
theorem c7_contains_frame (s : St K V) (k : K) :
    (containsOp s k).1 = s
    ∧ ((containsOp s k).2 = true ↔ k ∈ s.index.map Prod.fst)
    ∧ (∀ ops : List (Op K V), runOps (containsOp s k).1 ops = runOps s ops) := by
  refine ⟨rfl, ?_, fun ops => rfl⟩
  show (mfind s.index k).isSome = true ↔ _
  rw [Option.isSome_iff_ne_none, ne_eq, mfind_eq_none_iff, not_not]

/-- C8: the specification claims `remove(k)` cleanly removes exactly the
entry for `k` whenever `k` is present.  On the reachable state after
`insert 1; insert 2; remove 2`, key 1 is present, yet `remove 1` has no
defined result: the earlier `remove 2` left the head node's `next`
dangling at the freed node (because the second node's `prev` was never
set by `List::push`), and `remove 1` writes through that freed pointer. -/
theorem c8_remove_present_ub :
    (runOps (mkCache 64 10 : St Nat Nat)
        [Op.ins 1 10, Op.ins 2 20, Op.rem 2]).isSome = true
    ∧ (runOps (mkCache 64 10 : St Nat Nat)
        [Op.ins 1 10, Op.ins 2 20, Op.rem 2]).map
        (fun s => (mfind s.index 1).isSome) = some true
    ∧ runOps (mkCache 64 10 : St Nat Nat)
        [Op.ins 1 10, Op.ins 2 20, Op.rem 2, Op.rem 1] = none := by
  decide

/-- C9: `get` signals `KeyNotFound` exactly when the key is absent from
the index (a present key either returns its value or has no defined
result, but never signals `KeyNotFound`), and on an absent key `tryGet`,
`remove` and `contains` complete normally, reporting absence through their
boolean results with the state unchanged. -/
theorem c9_notFound_discipline (s : St K V) (k : K) (v0 : V) :
    ((get s k).map Prod.snd = some (GetRes.keyNotFound : GetRes V) ↔
      mfind s.index k = none)
    ∧ (mfind s.index k = none →
        get s k = some (s, GetRes.keyNotFound)
        ∧ tryGet s k v0 = some (s, false, v0)
        ∧ remove s k = some (s, false)
        ∧ containsOp s k = (s, false)) := by
  constructor
  · constructor
    · intro h
      cases hf : mfind s.index k with
      | none => rfl
      | some i =>
        exfalso
        simp only [get, hf] at h
        cases h1 : lremove s i with
        | none => simp [h1] at h
        | some s1 =>
          cases h2 : push s1 i with
          | none => simp [h1, h2] at h
          | some s2 =>
            cases h3 : getN s2 i with
            | none => simp [h1, h2, h3] at h
            | some nd => simp [h1, h2, h3] at h
    · intro hf
      simp [get, hf]
  · intro hf
    exact ⟨by simp [get, hf], by simp [tryGet, hf], by simp [remove, hf],
      by simp [containsOp, hf]⟩

/-- C9 witness: the discipline instantiated at a fresh cache and key 5. -/
theorem c9_notFound_discipline_witness :
    ((get (mkCache 64 10 : St Nat Nat) 5).map Prod.snd
        = some (GetRes.keyNotFound : GetRes Nat) ↔
      mfind (mkCache 64 10 : St Nat Nat).index 5 = none)
    ∧ (mfind (mkCache 64 10 : St Nat Nat).index 5 = none →
        get (mkCache 64 10 : St Nat Nat) 5
          = some ((mkCache 64 10 : St Nat Nat), GetRes.keyNotFound)
        ∧ tryGet (mkCache 64 10 : St Nat Nat) 5 0
          = some ((mkCache 64 10 : St Nat Nat), false, 0)
        ∧ remove (mkCache 64 10 : St Nat Nat) 5
          = some ((mkCache 64 10 : St Nat Nat), false)
        ∧ containsOp (mkCache 64 10 : St Nat Nat) 5
          = ((mkCache 64 10 : St Nat Nat), false)) :=
  c9_notFound_discipline (mkCache 64 10 : St Nat Nat) 5 0

/-- C10: on a miss, `tryGet` leaves the caller's output variable exactly
as it was (the third component of the result is the unchanged `vOut`),
returns found = false, and does not change the cache state. -/
theorem c10_tryGet_miss_preserves_vOut (s : St K V) (k : K) (v0 : V)
    (hk : mfind s.index k = none) :
    tryGet s k v0 = some (s, false, v0) := by
  simp [tryGet, hk]

/-- C10 witness: a miss on a fresh cache with vOut initially 123. -/
theorem c10_tryGet_miss_preserves_vOut_witness :
    mfind (mkCache 64 10 : St Nat Nat).index 7 = none
    ∧ tryGet (mkCache 64 10 : St Nat Nat) 7 123
        = some ((mkCache 64 10 : St Nat Nat), false, 123) :=
  ⟨by decide, c10_tryGet_miss_preserves_vOut (mkCache 64 10 : St Nat Nat) 7 123
    (by decide)⟩

end LRU
